import Mathlib

/-!
Shallow embedding of `generate_prompt_context.py`, a tool that walks a
directory tree, filters files by extension/glob/binary heuristics, and emits a
Markdown document with a tree listing plus file contents.

Modelling conventions:
* byte buffers are `List Nat` (each element a byte value);
* filesystem paths relative to the scanned root are `List String` (segments);
* the filesystem under the root is a list of `Entry` (a tree: files carry a
  symlink flag, directories carry their children);
* Python `set`s of strings are modelled as `List String` used only through
  membership, which is how the program uses them;
* `str.lower` is modelled on ASCII letters (the only letters appearing in the
  program's extension sets);
* the floating comparison `non_text / len(sample) > 0.30` is modelled by the
  exact rational comparison `10 * non_text > 3 * len(sample)`; for sample
  sizes up to 4096 the two agree (the gap between any ratio `k/n` with
  `n ≤ 4096` and the double nearest to `0.30` far exceeds the rounding error
  of one IEEE double division, and `3/10` itself divides to exactly the
  double literal `0.30`).
-/

namespace PromptContext

/-! ## ASCII string helpers (models of the Python `str` methods used) -/

/-- Is `c` an ASCII uppercase letter? -/
def isUpperA (c : Char) : Bool := 65 ≤ c.toNat && c.toNat ≤ 90

/-- Does the string contain an ASCII uppercase letter? -/
def hasUpperA (s : String) : Bool := s.toList.any isUpperA

/-- Model of `str.lower` on one character, restricted to ASCII letters. -/
def lowerChar (c : Char) : Char :=
  if isUpperA c then Char.ofNat (c.toNat + 32) else c

/-- Model of `str.lower`. -/
def strLower (s : String) : String := String.mk (s.toList.map lowerChar)

/-- Whitespace characters stripped by Python `str.strip()` (ASCII range). -/
def isPySpace (c : Char) : Bool :=
  c = ' ' || c = '\t' || c = '\n' || c = '\x0d' || c = '\x0b' || c = '\x0c'

/-- Model of `str.strip()` (ASCII whitespace). -/
def pyStrip (s : String) : String :=
  String.mk (((s.toList.dropWhile isPySpace).reverse.dropWhile isPySpace).reverse)

/-- Index of the last `.` in a character list (Python `str.rfind('.')`),
`none` when absent. -/
def rfindDot (cs : List Char) : Option Nat :=
  ((cs.enum.filter (fun p => p.2 = '.')).getLast?).map (fun p => p.1)

/-- Model of `pathlib.PurePath.suffix` applied to a bare file name: the part
of the name from its last dot on, provided that dot is neither the first nor
the last character; otherwise the empty string. -/
def pySuffix (name : String) : String :=
  let cs := name.toList
  match rfindDot cs with
  | some k => if 0 < k ∧ k < cs.length - 1 then String.mk (cs.drop k) else ""
  | none => ""

/-- Code-point lexicographic strict comparison on character lists: the order
Python `<` uses on strings. -/
def listLtB : List Char → List Char → Bool
  | [], [] => false
  | [], _ :: _ => true
  | _ :: _, [] => false
  | a :: as, b :: bs =>
    if a.toNat < b.toNat then true
    else if b.toNat < a.toNat then false
    else listLtB as bs

/-- Python string `<`. -/
def pyStrLt (a b : String) : Bool := listLtB a.toList b.toList

/-- Python string `<=` (the comparison driving `list.sort`): not strictly
greater. -/
def pyStrLe (a b : String) : Bool := ! pyStrLt b a

/-- POSIX rendering of a relative path: segments joined with `/`
(`PurePath.as_posix` on a path relative to the root). -/
def posixOf (segs : List String) : String := String.intercalate "/" segs

/-- Last segment of a relative path (`PurePath.name`); `""` for the empty
path, which never denotes a collected file. -/
def lastName (segs : List String) : String := segs.getLast?.getD ""

/-! ## Built-in configuration tables (module-level constants of the source) -/

/-- `DEFAULT_IGNORE_DIRS` from the source. -/
def DEFAULT_IGNORE_DIRS : List String :=
  [".git", ".hg", ".svn",
   "__pycache__", ".pytest_cache", ".mypy_cache", ".ruff_cache",
   ".ipynb_checkpoints",
   "node_modules",
   "venv", ".venv", "env",
   "dist", "build", "target", "out",
   ".idea", ".vscode"]

/-- `DEFAULT_IGNORE_FILES` from the source (note: the tool's default output
name and its own source file name are members). -/
def DEFAULT_IGNORE_FILES : List String :=
  [".DS_Store",
   "package-lock.json", "yarn.lock", "pnpm-lock.yaml",
   "poetry.lock", "Pipfile.lock",
   "prompt_context.md",
   "generate_prompt_context.py"]

/-- `DEFAULT_EXCLUDE_EXTS` from the source. -/
def DEFAULT_EXCLUDE_EXTS : List String :=
  [".png", ".jpg", ".jpeg", ".gif", ".webp", ".svg", ".ico",
   ".pdf",
   ".zip", ".tar", ".gz", ".bz2", ".xz", ".7z", ".rar",
   ".mp3", ".wav", ".mp4", ".mov", ".avi", ".mkv",
   ".parquet", ".feather", ".arrow", ".orc",
   ".npz", ".npy",
   ".pt", ".pth", ".onnx",
   ".pkl", ".pickle",
   ".db", ".sqlite", ".sqlite3",
   ".exe", ".dll", ".so", ".dylib"]

/-- `LANG_MAP` from the source (extension to fence language). -/
def LANG_MAP : List (String × String) :=
  [(".py", "python"), (".js", "javascript"), (".ts", "typescript"),
   (".tsx", "tsx"), (".jsx", "jsx"), (".java", "java"), (".go", "go"),
   (".rs", "rust"), (".cpp", "cpp"), (".c", "c"), (".h", "c"),
   (".hpp", "cpp"), (".cs", "csharp"), (".php", "php"), (".rb", "ruby"),
   (".kt", "kotlin"), (".swift", "swift"), (".sh", "bash"), (".zsh", "zsh"),
   (".ps1", "powershell"), (".sql", "sql"), (".json", "json"),
   (".yaml", "yaml"), (".yml", "yaml"), (".toml", "toml"), (".ini", "ini"),
   (".cfg", "ini"), (".xml", "xml"), (".html", "html"), (".css", "css"),
   (".md", "markdown"), (".tex", "tex")]

/-! ## CLI list parsing -/

/-- Model of Python `str.split(",")`: the comma-separated pieces, keeping
empty pieces (an input without commas yields one piece). -/
def splitCommaAux : List Char → List Char → List String
  | [], acc => [String.mk acc.reverse]
  | ',' :: rest, acc => String.mk acc.reverse :: splitCommaAux rest []
  | c :: rest, acc => splitCommaAux rest (c :: acc)

/-- `value.split(",")`. -/
def pySplitComma (s : String) : List String := splitCommaAux s.toList []

/-- `parse_csv_set`: split a comma list, strip whitespace, drop empties.
`none` models Python `None`; the Python result is a set, used only through
membership, so a list model is adequate. -/
def parse_csv_set (value : Option String) : List String :=
  match value with
  | none => []
  | some v =>
    if v = "" then []
    else ((pySplitComma v).map pyStrip).filter (fun x => x ≠ "")

/-- `x.startswith(".")`. -/
def startsWithDot (s : String) : Bool :=
  match s.toList with
  | '.' :: _ => true
  | _ => false

/-- `to_ext_set`: dot-prefix each entry that does not already start with a
dot.  Note that no lowercasing happens here. -/
def to_ext_set (value : Option String) : List String :=
  (parse_csv_set value).map (fun x => if startsWithDot x then x else "." ++ x)

/-! ## Binary sniffer -/

/-- `is_probably_binary`: any null byte means binary; the empty buffer is not
binary; otherwise more than 30% non-text bytes in the first 4096 bytes means
binary (text bytes are printable ASCII 32..126 plus tab, LF, CR).  The float
comparison is modelled exactly as a rational comparison (see module header). -/
def is_probably_binary (data : List Nat) : Bool :=
  if 0 ∈ data then true
  else if data = [] then false
  else
    let sample := data.take 4096
    let non_text := (sample.filter (fun b =>
      ¬ ((32 ≤ b ∧ b ≤ 126) ∨ b = 9 ∨ b = 10 ∨ b = 13))).length
    10 * non_text > 3 * sample.length

/-! ## Glob matching (model of `fnmatch.fnmatch`)

On POSIX `fnmatch.fnmatch` is `fnmatchcase` (`os.path.normcase` is the
identity).  The matcher below implements the translated-regex semantics
directly: `*` matches any sequence (including `/`), `?` any single
character, `[...]` a character class with optional leading `!` negation, a
leading `]` taken literally, and `a-b` ranges; an unterminated `[` is a
literal `[`. -/

/-- Scan for the closing `]` of a character class; returns the class content
and the remainder of the pattern, or `none` when the class is unterminated. -/
def scanClose : List Char → Option (List Char × List Char)
  | [] => none
  | ']' :: rest => some ([], rest)
  | c :: rest => (scanClose rest).map (fun p => (c :: p.1, p.2))

/-- Parse a character class body, i.e. the pattern after a `[`: an optional
leading `!` (negation) and a leading `]` taken literally, then everything up
to the closing `]`. -/
def parseBracket (cs : List Char) : Option (Bool × List Char × List Char) :=
  let step := fun (neg : Bool) (cs1 : List Char) =>
    match cs1 with
    | ']' :: r2 => (scanClose r2).map (fun p => (neg, ']' :: p.1, p.2))
    | _ => (scanClose cs1).map (fun p => (neg, p.1, p.2))
  match cs with
  | '!' :: r => step true r
  | _ => step false cs

/-- Does character `c` match the character-class content (with `a-b` ranges,
a trailing `-` literal)? -/
def classMatches : List Char → Char → Bool
  | a :: '-' :: b :: rest, c =>
    (a ≤ c && c ≤ b) || classMatches rest c
  | a :: rest, c => a = c || classMatches rest c
  | [], _ => false

/-- Shell-style wildcard matching of pattern `p` against string `s`. -/
def globMatch (p : List Char) (s : List Char) : Bool :=
  match p, s with
  | [], [] => true
  | [], _ :: _ => false
  | '*' :: ps, [] => globMatch ps []
  | '*' :: ps, c :: s1 => globMatch ps (c :: s1) || globMatch ('*' :: ps) s1
  | '?' :: _, [] => false
  | '?' :: ps, _ :: s1 => globMatch ps s1
  | '[' :: ps, [] =>
    (match parseBracket ps with
     | some _ => false
     | none => false)
  | '[' :: ps, c :: s1 =>
    (match parseBracket ps with
     | some (neg, content, rest) =>
       (if neg then ¬ classMatches content c else classMatches content c) &&
         globMatch rest s1
     | none => c = '[' && globMatch ps s1)
  | _ :: _, [] => false
  | pc :: ps, c :: s1 => pc = c && globMatch ps s1
  termination_by (s.length, p.length)

/-- `fnmatch.fnmatch(name, pat)` on POSIX. -/
def fnmatch (nameStr pat : String) : Bool := globMatch pat.toList nameStr.toList

/-- `rel_posix.endswith("/")`. -/
def endsWithSlash (s : String) : Bool := s.toList.getLast? = some '/'

/-- `matches_any_glob`: test the relative POSIX path, and for directories
also the path with a trailing slash appended, against every pattern. -/
def matches_any_glob (rel_posix : String) (patterns : List String)
    (is_dir : Bool) : Bool :=
  if patterns = [] then false
  else
    let candidates :=
      if is_dir && ¬ endsWithSlash rel_posix
      then [rel_posix, rel_posix ++ "/"] else [rel_posix]
    candidates.any (fun c => patterns.any (fun pat => fnmatch c pat))

/-- `fence_lang`: fenced-block language from the (lowercased) extension, with
a special case for files named `dockerfile` and a `text` default. -/
def fence_lang (fileName : String) : String :=
  let ext := strLower (pySuffix fileName)
  if strLower fileName = "dockerfile" then "dockerfile"
  else ((LANG_MAP.find? (fun p => p.1 = ext)).map (fun p => p.2)).getD "text"

/-! ## UTF-8 decoding (model of `bytes.decode("utf-8")`)

CPython's decoder accepts exactly well-formed UTF-8 (RFC 3629: no
surrogates, no overlong forms, code points up to U+10FFFF).  With
`errors="replace"` each maximal subpart of an ill-formed sequence is replaced
by one U+FFFD.  `utf8DecodeReplace` returns the replaced decoding together
with a flag telling whether any replacement happened; the strict decode
succeeds exactly when the flag is `false`, in which case both agree. -/

/-- Replacement character U+FFFD. -/
def replChar : Char := Char.ofNat 0xFFFD

/-- Handle one byte from a clean decoder state: an ASCII byte is emitted, a
valid lead byte opens a pending sequence `(needed continuations, accumulated
value, lower bound, upper bound for the next byte)` — the per-lead bounds
encode CPython's rejection of overlong forms, surrogates and code points
above U+10FFFF — and any other byte is one ill-formed byte, replaced. -/
def utf8Start (b : Nat) : List Char × Bool × Option (Nat × Nat × Nat × Nat) :=
  if b ≤ 0x7F then ([Char.ofNat b], false, none)
  else if 0xC2 ≤ b && b ≤ 0xDF then ([], false, some (1, b - 0xC0, 0x80, 0xBF))
  else if 0xE0 ≤ b && b ≤ 0xEF then
    ([], false, some (2, b - 0xE0,
      if b = 0xE0 then 0xA0 else 0x80,
      if b = 0xED then 0x9F else 0xBF))
  else if 0xF0 ≤ b && b ≤ 0xF4 then
    ([], false, some (3, b - 0xF0,
      if b = 0xF0 then 0x90 else 0x80,
      if b = 0xF4 then 0x8F else 0xBF))
  else ([replChar], true, none)

/-- Decode a byte list as UTF-8 from a given pending-sequence state,
replacing each maximal ill-formed subpart with one U+FFFD; the flag records
whether any replacement happened.  A missing or out-of-range continuation
byte replaces the whole pending prefix with one U+FFFD and restarts at the
offending byte, which is the maximal-subpart rule CPython implements for
`errors="replace"`. -/
def utf8DecodeReplaceAux :
    Option (Nat × Nat × Nat × Nat) → List Nat → List Char × Bool
  | none, [] => ([], false)
  | some _, [] => ([replChar], true)
  | none, b :: rest =>
    let s := utf8Start b
    let r := utf8DecodeReplaceAux s.2.2 rest
    (s.1 ++ r.1, s.2.1 || r.2)
  | some (need, acc, lo, hi), b :: rest =>
    if lo ≤ b && b ≤ hi then
      if need = 1 then
        let r := utf8DecodeReplaceAux none rest
        (Char.ofNat (acc * 64 + (b - 0x80)) :: r.1, r.2)
      else
        utf8DecodeReplaceAux (some (need - 1, acc * 64 + (b - 0x80),
          0x80, 0xBF)) rest
    else
      let s := utf8Start b
      let r := utf8DecodeReplaceAux s.2.2 rest
      (replChar :: (s.1 ++ r.1), true)
  termination_by structural _ l => l

/-- Lossy UTF-8 decode: the decoded string plus a had-errors flag. -/
def utf8DecodeReplace (data : List Nat) : String × Bool :=
  let r := utf8DecodeReplaceAux none data
  (String.mk r.1, r.2)

/-! ## Text reader -/

/-- Python slice `data[:m]` with a possibly negative `m`. -/
def pySliceTo (data : List Nat) (m : Int) : List Nat :=
  if 0 ≤ m then data.take m.toNat
  else data.take (((data.length : Int) + m).toNat)

/-- `read_text_file`: the byte read is modelled as `Option (List Nat)`
(`none` = any I/O failure, swallowed).  Binary content yields no content;
otherwise the buffer is truncated when `max_bytes` is non-zero and exceeded
(with a note), then decoded as UTF-8, falling back to lossy replacement with
an extra note. -/
def read_text_file (data? : Option (List Nat)) (max_bytes : Int) :
    Option String × Option String :=
  match data? with
  | none => (none, none)
  | some data =>
    if is_probably_binary data then (none, none)
    else
      let doTrunc := max_bytes ≠ 0 ∧ (data.length : Int) > max_bytes
      let data1 := if doTrunc then pySliceTo data max_bytes else data
      let note1 : Option String :=
        if doTrunc then
          some ("TRUNCATED to first " ++ toString max_bytes ++
            " bytes (use --max-bytes 0 for full content)")
        else none
      let dec := utf8DecodeReplace data1
      let note2 : Option String :=
        if dec.2 then
          some ((match note1 with
                 | some n => n ++ " | "
                 | none => "") ++ "invalid utf-8 replaced")
        else note1
      (some dec.1, note2)

/-! ## Filesystem model and file collector -/

/-- A filesystem entry under the scanned root: a file (with a symlink flag;
`os.walk(followlinks=False)` lists file symlinks among the filenames and the
collector then skips them via `is_symlink`) or a directory with children. -/
inductive Entry where
  | file (name : String) (isSymlink : Bool)
  | dir (name : String) (children : List Entry)
deriving Repr

/-- Name of an entry. -/
def entryName : Entry → String
  | Entry.file n _ => n
  | Entry.dir n _ => n

/-- Per-file admission test of `collect_files` (the body of its inner file
loop): ignored bare names, symlinks, exclude globs on the relative POSIX
path, excluded extensions, then the optional allow-list, in source order. -/
def fileAdmitted (include_exts ignore_files exclude_exts exclude_globs :
    List String) (relDir : List String) (fn : String) (isSym : Bool) : Bool :=
  if fn ∈ ignore_files then false
  else if isSym then false
  else if matches_any_glob (posixOf (relDir ++ [fn])) exclude_globs false
  then false
  else if strLower (pySuffix fn) ∈ exclude_exts then false
  else if include_exts ≠ [] ∧ strLower (pySuffix fn) ∉ include_exts
  then false
  else true

/-- Per-directory pruning test of `collect_files` (its `dirnames` filter): a
directory is kept unless its bare name is an ignored directory name or its
relative path (with trailing slash appended for matching) matches an exclude
glob. -/
def dirKept (ignore_dirs exclude_globs : List String) (relDir : List String)
    (dn : String) : Bool :=
  if dn ∈ ignore_dirs then false
  else if matches_any_glob (posixOf (relDir ++ [dn])) exclude_globs true
  then false
  else true

/-- The `os.walk(topdown=True, followlinks=False)` traversal of
`collect_files`, as a tree recursion: admitted files are collected, pruned
directories are never descended into.  (`collect_files` sorts the result, so
only the collected set and the relative order of equal-sort-key files —
which walk order and this recursion agree on, ties being possible only
between files at equal depth — are observable.) -/
def collectFrom (include_exts ignore_dirs ignore_files exclude_exts
    exclude_globs : List String) (relDir : List String) :
    List Entry → List (List String)
  | [] => []
  | Entry.file fn sym :: rest =>
    (if fileAdmitted include_exts ignore_files exclude_exts exclude_globs
        relDir fn sym
     then [relDir ++ [fn]] else []) ++
      collectFrom include_exts ignore_dirs ignore_files exclude_exts
        exclude_globs relDir rest
  | Entry.dir dn cs :: rest =>
    (if dirKept ignore_dirs exclude_globs relDir dn
     then collectFrom include_exts ignore_dirs ignore_files exclude_exts
        exclude_globs (relDir ++ [dn]) cs
     else []) ++
      collectFrom include_exts ignore_dirs ignore_files exclude_exts
        exclude_globs relDir rest

/-- Stable insertion of `x` into a `le`-sorted list: `x` goes before the
first element it is `le`-below-or-equal to — later-inserted elements land
after equal keys, which is Python's stable sort order. -/
def insertSorted (le : α → α → Bool) (x : α) : List α → List α
  | [] => [x]
  | y :: ys => if le x y then x :: y :: ys else y :: insertSorted le x ys

/-- Stable sort (model of Python `list.sort`, which is stable). -/
def pySort (le : α → α → Bool) : List α → List α
  | [] => []
  | x :: xs => insertSorted le x (pySort le xs)

/-- Sort key of `collect_files`: the lowercased POSIX relative path. -/
def sortKey (p : List String) : String := strLower (posixOf p)

/-- `collect_files`: walk the tree from the root, then sort by lowercased
POSIX relative path. -/
def collect_files (root : List Entry) (include_exts ignore_dirs ignore_files
    exclude_exts exclude_globs : List String) : List (List String) :=
  pySort (fun a b => pyStrLe (sortKey a) (sortKey b))
    (collectFrom include_exts ignore_dirs ignore_files exclude_exts
      exclude_globs [] root)

/-! ## Tree renderer -/

/-- The non-empty prefixes of one relative path (`parts[:i]` for
`i = 1 .. len(parts)`). -/
def prefixesOf (f : List String) : List (List String) :=
  (List.range f.length).map (fun i => f.take (i + 1))

/-- The Tree Node Set of `build_tree_lines`, as a duplicate-free list.  The
Python original is a `set` of paths, whose iteration order is unspecified
(string hashing is randomized per process); `treeNodes` fixes one
representative enumeration, and the renderer below is parameterized by the
enumeration to model that unspecifiedness. -/
def treeNodes (files : List (List String)) : List (List String) :=
  (files.flatMap prefixesOf).dedup

/-- Look up a relative path in the filesystem model. -/
def findEntry : List Entry → List String → Option Entry
  | _, [] => none
  | es, [seg] => es.find? (fun e => entryName e = seg)
  | es, seg :: rest =>
    match es.find? (fun e => entryName e = seg) with
    | some (Entry.dir _ cs) => findEntry cs rest
    | _ => none

/-- `(root / p).is_dir()` in the filesystem model. -/
def isDirIn (fs : List Entry) (p : List String) : Bool :=
  match findEntry fs p with
  | some (Entry.dir _ _) => true
  | _ => false

/-- The sort key of `children` in `build_tree_lines`: directories first
(component 0 versus 1), then the lowercased last name. -/
def nodeKey (fs : List Entry) (n : List String) : Nat × String :=
  (if isDirIn fs n then 0 else 1, strLower (lastName n))

/-- Lexicographic comparison of `children` sort keys (Python tuple `<=` on
`(int, str)` pairs). -/
def keyLe (fs : List Entry) (a b : List String) : Bool :=
  if (nodeKey fs a).1 < (nodeKey fs b).1 then true
  else if (nodeKey fs a).1 = (nodeKey fs b).1 then
    pyStrLe (nodeKey fs a).2 (nodeKey fs b).2
  else false

/-- `children` from `build_tree_lines`: the nodes one segment below `of`,
stably sorted with directories first then case-insensitive name.  The node
enumeration order is a parameter (see `treeNodes`). -/
def childrenOf (fs : List Entry) (nodes : List (List String))
    (of : List String) : List (List String) :=
  pySort (keyLe fs)
    (nodes.filter (fun n =>
      n.length = of.length + 1 && decide (n.take of.length = of)))

/-- Upper bound on node path lengths, used as the recursion measure of the
renderer walk. -/
def maxNodeLen (nodes : List (List String)) : Nat :=
  nodes.foldr (fun n m => max n.length m) 0

/-- The recursive `walk` of `build_tree_lines`: render the children of
`parent`, each child's line carrying the connector (`└── ` for the last
child, `├── ` otherwise) and a trailing slash for directories, recursing
into directory children with the extended indentation.

The recursion descends one path segment per call and every node is at most
`maxNodeLen nodes` segments deep, so it is phrased structurally on an
explicit depth budget; `walkTree_stable` below proves the budget used by
`build_tree_lines_enum` is never exhausted (any larger budget renders the
same lines), so the budget is a termination device, not a behaviour. -/
def walkTree (fs : List Entry) (nodes : List (List String)) :
    Nat → String → List String → List String
  | 0, _, _ => []
  | fuel + 1, ind, parent =>
    let kids := childrenOf fs nodes parent
    kids.enum.flatMap (fun x =>
      let isLast := x.1 = kids.length - 1
      let connector := if isLast then "└── " else "├── "
      let dirHere := isDirIn fs x.2
      let suffixStr := if dirHere then "/" else ""
      (ind ++ connector ++ lastName x.2 ++ suffixStr) ::
        (if dirHere then
          walkTree fs nodes fuel (ind ++ (if isLast then "    " else "│   "))
            x.2
         else []))

/-- `build_tree_lines` parameterized by the enumeration order of the node
set: the root line `"."` followed by the rendered walk from the root, with a
depth budget that `walkTree_stable` shows is never exhausted. -/
def build_tree_lines_enum (fs : List Entry) (nodes : List (List String)) :
    List String :=
  "." :: walkTree fs nodes (maxNodeLen nodes + 1) "" []

/-- `build_tree_lines` with the representative node enumeration
(`treeNodes`). -/
def build_tree_lines (fs : List Entry) (files : List (List String)) :
    List String :=
  build_tree_lines_enum fs (treeNodes files)

/-! ## Main wiring (the Document Assembler) -/

/-- The parsed CLI arguments of `main` that feed the pipeline (`--root` is
replaced by the filesystem model itself). -/
structure Args where
  out : String
  include_ext : String
  exclude_ext : String
  exclude_glob : String
  max_bytes : Int

/-- The defaulted arguments. -/
def Args.default : Args :=
  ⟨"prompt_context.md", "", "", "", 0⟩

/-- The `collect_files` call of `main`: the include/exclude extension lists
come from the CLI, the exclude set unioned with the built-in defaults; the
ignore sets are always the built-in defaults — note that `args.out` does not
influence the filter in any way. -/
def main_collect (fs : List Entry) (args : Args) : List (List String) :=
  collect_files fs (to_ext_set (some args.include_ext)) DEFAULT_IGNORE_DIRS
    DEFAULT_IGNORE_FILES
    (DEFAULT_EXCLUDE_EXTS ++ to_ext_set (some args.exclude_ext))
    (parse_csv_set (some args.exclude_glob))

/-- One file's section of the document, from the body of `main`'s content
loop: no lines at all when the reader returned no content, otherwise the
`### FILE:` heading, an optional note line, and the fenced content block. -/
def fileSection (rel lang : String) :
    Option String × Option String → List String
  | (none, _) => []
  | (some content, note) =>
    ("### FILE: `" ++ rel ++ "`\n") ::
      ((match note with
        | some n => ["> NOTE: " ++ n ++ "\n"]
        | none => []) ++
       ["\n```" ++ lang ++ "\n" ++ content ++ "\n```\n\n---\n\n"])


/-! ## General lemmas -/

theorem length_le_maxNodeLen {nodes : List (List String)} {n : List String} :
    n ∈ nodes → n.length ≤ maxNodeLen nodes := by
  induction nodes with
  | nil => intro h; cases h
  | cons a l ih =>
    intro h
    rcases List.mem_cons.mp h with h | h
    · simp [maxNodeLen, h]
    · simp only [maxNodeLen, List.foldr_cons]
      exact le_trans (ih h) (le_max_right _ _)

theorem mem_of_mem_insertSorted {le : α → α → Bool} {x a : α} {l : List α} :
    a ∈ insertSorted le x l → a = x ∨ a ∈ l := by
  induction l with
  | nil => intro h; simpa [insertSorted] using h
  | cons y ys ih =>
    intro h
    simp only [insertSorted] at h
    split at h
    · simpa using h
    · rcases List.mem_cons.mp h with h | h
      · right; simp [h]
      · rcases ih h with h | h
        · exact Or.inl h
        · right; simp [h]

theorem mem_of_mem_pySort {le : α → α → Bool} {a : α} {l : List α} :
    a ∈ pySort le l → a ∈ l := by
  induction l with
  | nil => intro h; simp [pySort] at h
  | cons x xs ih =>
    intro h
    simp only [pySort] at h
    rcases mem_of_mem_insertSorted h with h | h
    · simp [h]
    · simp [ih h]

theorem mem_snd_of_mem_enumFrom {l : List α} {n : Nat} {p : Nat × α} :
    p ∈ l.enumFrom n → p.2 ∈ l := by
  induction l generalizing n with
  | nil => intro h; cases h
  | cons x xs ih =>
    intro h
    simp only [List.enumFrom] at h
    rcases List.mem_cons.mp h with h | h
    · simp [h]
    · simpa using Or.inr (ih h)

theorem mem_childrenOf {fs : List Entry} {nodes : List (List String)}
    {of k : List String} (h : k ∈ childrenOf fs nodes of) :
    k ∈ nodes ∧ k.length = of.length + 1 ∧ k.take of.length = of := by
  have h1 := mem_of_mem_pySort h
  have h2 := List.mem_filter.mp h1
  refine ⟨h2.1, ?_, ?_⟩
  · have := h2.2
    simp only [Bool.and_eq_true, decide_eq_true_eq] at this
    exact this.1
  · have := h2.2
    simp only [Bool.and_eq_true, decide_eq_true_eq] at this
    exact this.2

theorem flatMap_congr_mem {l : List α} {f g : α → List β}
    (h : ∀ x ∈ l, f x = g x) : l.flatMap f = l.flatMap g := by
  unfold List.flatMap
  rw [List.map_congr_left h]

theorem childrenOf_eq_nil {fs : List Entry} {nodes : List (List String)}
    {parent : List String} (h : maxNodeLen nodes ≤ parent.length) :
    childrenOf fs nodes parent = [] := by
  unfold childrenOf
  have hf : nodes.filter (fun n =>
      n.length = parent.length + 1 && decide (n.take parent.length = parent))
      = [] := by
    apply List.filter_eq_nil_iff.mpr
    intro n hn hcond
    have := length_le_maxNodeLen hn
    simp only [Bool.and_eq_true, decide_eq_true_eq] at hcond
    omega
  rw [hf]
  rfl

/-- The depth budget of `walkTree` is irrelevant once it exceeds the longest
node path below `parent`: a larger budget renders exactly the same lines. -/
theorem walkTree_stable (fs : List Entry) (nodes : List (List String)) :
    ∀ (fuel : Nat) (ind : String) (parent : List String),
      maxNodeLen nodes < parent.length + fuel →
      walkTree fs nodes (fuel + 1) ind parent =
        walkTree fs nodes fuel ind parent := by
  intro fuel
  induction fuel with
  | zero =>
    intro ind parent h
    simp only [Nat.add_zero] at h
    simp [walkTree, childrenOf_eq_nil (Nat.le_of_lt h)]
  | succ fuel ih =>
    intro ind parent h
    conv_lhs => rw [walkTree]
    conv_rhs => rw [walkTree]
    apply flatMap_congr_mem
    intro x hx
    have hk : x.2 ∈ childrenOf fs nodes parent :=
      mem_snd_of_mem_enumFrom (by simpa [List.enum] using hx)
    have h1 := mem_childrenOf hk
    by_cases hd : isDirIn fs x.2
    · simp only [hd, if_true]
      rw [ih _ x.2 (by omega)]
    · simp [hd]

theorem fileAdmitted_iff {ie igf ee eg : List String} {rd : List String}
    {fn : String} {sym : Bool} :
    fileAdmitted ie igf ee eg rd fn sym = true ↔
      fn ∉ igf ∧ sym = false ∧
      matches_any_glob (posixOf (rd ++ [fn])) eg false = false ∧
      strLower (pySuffix fn) ∉ ee ∧
      (ie ≠ [] → strLower (pySuffix fn) ∈ ie) := by
  unfold fileAdmitted
  split_ifs with h1 h2 h3 h4 h5 <;> simp_all

theorem dirKept_iff {igd eg : List String} {rd : List String} {dn : String} :
    dirKept igd eg rd dn = true ↔
      dn ∉ igd ∧ matches_any_glob (posixOf (rd ++ [dn])) eg true = false := by
  unfold dirKept
  split_ifs with h1 h2 <;> simp_all

/-- Master characterization of one direction of the collector: every
collected path extends the starting directory by a non-empty suffix whose
directory segments all survived pruning and whose final file name passed
every admission check. -/
theorem collectFrom_mem {ie igd igf ee eg : List String}
    {relDir p : List String} {es : List Entry} :
    p ∈ collectFrom ie igd igf ee eg relDir es →
    ∃ q fn, p = relDir ++ q ∧ q.getLast? = some fn ∧
      (∀ d ∈ q.dropLast, d ∉ igd) ∧
      fn ∉ igf ∧
      strLower (pySuffix fn) ∉ ee ∧
      (ie ≠ [] → strLower (pySuffix fn) ∈ ie) ∧
      matches_any_glob (posixOf p) eg false = false := by
  induction relDir, es using collectFrom.induct ie igd igf ee eg with
  | case1 rd =>
    intro h
    simp [collectFrom] at h
  | case2 rd fn sym rest ih =>
    intro h
    rw [collectFrom] at h
    rcases List.mem_append.mp h with h | h
    · split_ifs at h with ha
      · have hp : p = rd ++ [fn] := by simpa using h
        have hf := fileAdmitted_iff.mp ha
        refine ⟨[fn], fn, hp, rfl, by simp, hf.1, hf.2.2.2.1, hf.2.2.2.2, ?_⟩
        rw [hp]
        exact hf.2.2.1
      · simp at h
    · exact ih h
  | case3 rd dn cs rest ih1 ih2 =>
    intro h
    rw [collectFrom] at h
    rcases List.mem_append.mp h with h | h
    · split_ifs at h with hd
      · rcases ih1 h with ⟨q, fn, hp, hlast, hdirs, hrest⟩
        have hd2 := dirKept_iff.mp hd
        rcases q with _ | ⟨q0, qs⟩
        · simp at hlast
        · refine ⟨dn :: q0 :: qs, fn, by simpa using hp, by simpa using hlast,
            ?_, hrest⟩
          intro d hdm
          rw [List.dropLast_cons₂] at hdm
          rcases List.mem_cons.mp hdm with hdm | hdm
          · subst hdm; exact hd2.1
          · exact hdirs d hdm
      · simp at h
    · exact ih2 h

theorem charToNat_inj {a b : Char} (h : a.toNat = b.toNat) : a = b :=
  Char.ext (UInt32.toNat.inj h)

theorem listLtB_trans : ∀ {a b c : List Char}, listLtB a b = true →
    listLtB b c = true → listLtB a c = true := by
  intro a
  induction a with
  | nil =>
    intro b c hab hbc
    cases b with
    | nil => simp [listLtB] at hab
    | cons y ys =>
      cases c with
      | nil => simp [listLtB] at hbc
      | cons z zs => simp [listLtB]
  | cons x xs ih =>
    intro b c hab hbc
    cases b with
    | nil => simp [listLtB] at hab
    | cons y ys =>
      cases c with
      | nil => simp [listLtB] at hbc
      | cons z zs =>
        simp only [listLtB] at hab hbc ⊢
        split_ifs at hab hbc ⊢ with h1 h2 h3 h4 h5 h6 <;>
          first
          | rfl
          | omega
          | (exact ih hab hbc)

theorem listLtB_eq_of_not : ∀ {a b : List Char}, listLtB a b = false →
    listLtB b a = false → a = b := by
  intro a
  induction a with
  | nil =>
    intro b hab _
    cases b with
    | nil => rfl
    | cons y ys => simp [listLtB] at hab
  | cons x xs ih =>
    intro b hab hba
    cases b with
    | nil => simp [listLtB] at hba
    | cons y ys =>
      simp only [listLtB] at hab hba
      by_cases h1 : x.toNat < y.toNat
      · rw [if_pos h1] at hab
        simp at hab
      · rw [if_neg h1] at hab
        by_cases h2 : y.toNat < x.toNat
        · rw [if_pos h2] at hba
          simp at hba
        · rw [if_neg h2] at hab
          rw [if_neg h2, if_neg h1] at hba
          simp only [List.cons.injEq]
          exact ⟨charToNat_inj (by omega), ih hab hba⟩

theorem listLtB_irrefl : ∀ l : List Char, listLtB l l = false := by
  intro l
  induction l with
  | nil => rfl
  | cons x xs ih => simp [listLtB, ih]

theorem listLtB_asymm {a b : List Char} (h : listLtB a b = true) :
    listLtB b a = false := by
  cases hba : listLtB b a
  · rfl
  · have hx := listLtB_trans h hba
    rw [listLtB_irrefl] at hx
    simp at hx

theorem pyStrLe_total (a b : String) :
    pyStrLe a b = true ∨ pyStrLe b a = true := by
  unfold pyStrLe pyStrLt
  cases h : listLtB b.toList a.toList
  · left; rfl
  · right
    rw [listLtB_asymm h]
    rfl

theorem pyStrLe_trans {a b c : String} (h1 : pyStrLe a b = true)
    (h2 : pyStrLe b c = true) : pyStrLe a c = true := by
  unfold pyStrLe pyStrLt at h1 h2 ⊢
  simp only [Bool.not_eq_true'] at h1 h2 ⊢
  cases hca : listLtB c.toList a.toList
  · rfl
  · exfalso
    cases hbc : listLtB b.toList c.toList
    · cases hcb : listLtB c.toList b.toList
      · have hbceq := listLtB_eq_of_not hbc hcb
        rw [hbceq, hca] at h1
        simp at h1
      · rw [hcb] at h2
        simp at h2
    · have hx := listLtB_trans hbc hca
      rw [hx] at h1
      simp at h1

theorem pyStrLe_antisymm {a b : String} (h1 : pyStrLe a b = true)
    (h2 : pyStrLe b a = true) : a = b := by
  unfold pyStrLe pyStrLt at h1 h2
  simp only [Bool.not_eq_true'] at h1 h2
  have h3 := listLtB_eq_of_not h2 h1
  cases a; cases b
  simp only [String.toList] at h3
  rw [h3]

theorem pairwise_insertSorted {le : α → α → Bool}
    (htot : ∀ a b, le a b = true ∨ le b a = true)
    (htrans : ∀ a b c, le a b = true → le b c = true → le a c = true)
    {x : α} {l : List α} (hl : l.Pairwise (fun a b => le a b = true)) :
    (insertSorted le x l).Pairwise (fun a b => le a b = true) := by
  induction l with
  | nil => simp [insertSorted]
  | cons y ys ih =>
    rw [insertSorted]
    rcases List.pairwise_cons.mp hl with ⟨hy, hys⟩
    split_ifs with hxy
    · refine List.Pairwise.cons ?_ hl
      intro b hb
      rcases List.mem_cons.mp hb with rfl | hb
      · exact hxy
      · exact htrans _ _ _ hxy (hy b hb)
    · refine List.Pairwise.cons ?_ (ih hys)
      intro b hb
      rcases mem_of_mem_insertSorted hb with rfl | hb
      · rcases htot b y with h | h
        · exact absurd h hxy
        · exact h
      · exact hy b hb

theorem pairwise_pySort {le : α → α → Bool}
    (htot : ∀ a b, le a b = true ∨ le b a = true)
    (htrans : ∀ a b c, le a b = true → le b c = true → le a c = true)
    (l : List α) :
    (pySort le l).Pairwise (fun a b => le a b = true) := by
  induction l with
  | nil => simp [pySort]
  | cons x xs ih =>
    rw [pySort]
    exact pairwise_insertSorted htot htrans ih

theorem insertSorted_perm (le : α → α → Bool) (x : α) (l : List α) :
    (insertSorted le x l).Perm (x :: l) := by
  induction l with
  | nil => exact List.Perm.refl _
  | cons y ys ih =>
    rw [insertSorted]
    split_ifs
    · exact List.Perm.refl _
    · exact (ih.cons y).trans (List.Perm.swap x y ys)

theorem pySort_perm (le : α → α → Bool) (l : List α) :
    (pySort le l).Perm l := by
  induction l with
  | nil => exact List.Perm.refl _
  | cons x xs ih =>
    rw [pySort]
    exact (insertSorted_perm le x (pySort le xs)).trans (ih.cons x)

/-- Two sorted lists with the same elements are equal, provided the order is
antisymmetric on those elements: the reason a stable sort is insensitive to
its input order exactly when no two distinct elements tie. -/
theorem eq_of_perm_of_pairwise {R : α → α → Prop} :
    ∀ {l1 l2 : List α}, l1.Perm l2 → l1.Pairwise R → l2.Pairwise R →
    (∀ a ∈ l1, ∀ b ∈ l1, R a b → R b a → a = b) → l1 = l2 := by
  intro l1
  induction l1 with
  | nil =>
    intro l2 hp _ _ _
    exact (List.Perm.nil_eq hp).symm ▸ rfl
  | cons a t1 ih =>
    intro l2 hp h1 h2 hanti
    cases l2 with
    | nil => exact absurd hp.symm (by simp)
    | cons b t2 =>
      have hab : a = b := by
        have ha2 : a ∈ b :: t2 := hp.mem_iff.mp (by simp)
        rcases List.mem_cons.mp ha2 with h | hat2
        · exact h
        · have hb1 : b ∈ a :: t1 := hp.symm.mem_iff.mp (by simp)
          rcases List.mem_cons.mp hb1 with h | hbt1
          · exact h.symm
          · have hRab : R a b := (List.pairwise_cons.mp h1).1 b hbt1
            have hRba : R b a := (List.pairwise_cons.mp h2).1 a hat2
            exact hanti a (by simp) b (by simp [hbt1]) hRab hRba
      subst hab
      have hp2 : t1.Perm t2 := hp.cons_inv
      rw [ih hp2 (List.pairwise_cons.mp h1).2 (List.pairwise_cons.mp h2).2
        (fun x hx y hy => hanti x (by simp [hx]) y (by simp [hy]))]

theorem keyLe_total (fs : List Entry) (a b : List String) :
    keyLe fs a b = true ∨ keyLe fs b a = true := by
  unfold keyLe
  rcases Nat.lt_trichotomy (nodeKey fs a).1 (nodeKey fs b).1 with h | h | h
  · left; simp [h]
  · rcases pyStrLe_total (nodeKey fs a).2 (nodeKey fs b).2 with hs | hs
    · left; simp [h, hs, lt_irrefl]
    · right; simp [h.symm, hs, lt_irrefl]
  · right; simp [h]

theorem keyLe_trans (fs : List Entry) (a b c : List String)
    (h1 : keyLe fs a b = true) (h2 : keyLe fs b c = true) :
    keyLe fs a c = true := by
  unfold keyLe at h1 h2 ⊢
  split_ifs at h1 h2 ⊢ with g1 g2 g3 g4 g5 g6 <;>
    first
    | rfl
    | omega
    | (exact pyStrLe_trans h1 h2)

theorem keyLe_antisymm_key {fs : List Entry} {a b : List String}
    (h1 : keyLe fs a b = true) (h2 : keyLe fs b a = true) :
    nodeKey fs a = nodeKey fs b := by
  unfold keyLe at h1 h2
  split_ifs at h1 h2 with g1 g2 <;>
    first
    | omega
    | simp_all
    | (exact Prod.ext (by omega) (pyStrLe_antisymm h1 h2))

theorem toNat_ofNat_valid {n : Nat} (h : n.isValidChar) :
    (Char.ofNat n).toNat = n := by
  rw [Char.ofNat, dif_pos h]
  simp [Char.ofNatAux, Char.toNat, UInt32.toNat]

theorem isUpperA_lowerChar (c : Char) : isUpperA (lowerChar c) = false := by
  unfold lowerChar
  split_ifs with h
  · unfold isUpperA at h ⊢
    simp only [Bool.and_eq_true, decide_eq_true_eq] at h
    have hv : (c.toNat + 32).isValidChar := Or.inl (by omega)
    rw [toNat_ofNat_valid hv]
    have h90 : ¬ (c.toNat + 32 ≤ 90) := by omega
    simp [h90]
  · simpa using h

theorem hasUpperA_strLower (s : String) : hasUpperA (strLower s) = false := by
  unfold hasUpperA strLower
  rw [show (String.mk (s.toList.map lowerChar)).toList = s.toList.map lowerChar
    from rfl]
  rw [List.any_map]
  rw [List.any_eq_false]
  intro c _
  rw [Function.comp_apply, isUpperA_lowerChar]
  simp

/-- Specialization of the master collector lemma to `collect_files`. -/
theorem collect_files_mem {root : List Entry} {ie igd igf ee eg : List String}
    {p : List String} (hp : p ∈ collect_files root ie igd igf ee eg) :
    ∃ fn, p.getLast? = some fn ∧ (∀ d ∈ p.dropLast, d ∉ igd) ∧ fn ∉ igf ∧
      strLower (pySuffix fn) ∉ ee ∧
      (ie ≠ [] → strLower (pySuffix fn) ∈ ie) := by
  unfold collect_files at hp
  have h1 := mem_of_mem_pySort hp
  rcases collectFrom_mem h1 with ⟨q, fn, hp2, hlast, hdirs, higf, hee, hie, _⟩
  simp only [List.nil_append] at hp2
  subst hp2
  exact ⟨fn, hlast, hdirs, higf, hee, hie⟩

/-! ## Claims -/

/-- C5: every byte buffer containing a null byte is classified binary by
`is_probably_binary`, regardless of its length or other contents; and the
empty buffer is classified not-binary. -/
theorem c5_null_byte_binary_empty_not (data : List Nat) :
    (0 ∈ data → is_probably_binary data = true) ∧
    is_probably_binary [] = false := by
  constructor
  · intro h
    simp [is_probably_binary, h]
  · rfl

theorem c5_null_byte_binary_empty_not_witness :
    0 ∈ [65, 0, 66] ∧ is_probably_binary [65, 0, 66] = true :=
  ⟨by decide, (c5_null_byte_binary_empty_not [65, 0, 66]).1 (by decide)⟩

/-- C7: the list returned by `collect_files` is sorted by the lowercased
POSIX relative path of each file, for every root and inclusion policy
(`pyStrLe` is Python's string comparison, `sortKey` the lowercased POSIX
path). -/
theorem c7_collect_files_sorted (root : List Entry)
    (ie igd igf ee eg : List String) :
    (collect_files root ie igd igf ee eg).Pairwise
      (fun a b => pyStrLe (sortKey a) (sortKey b) = true) := by
  unfold collect_files
  exact pairwise_pySort (fun a b => pyStrLe_total (sortKey a) (sortKey b))
    (fun a b c h1 h2 => pyStrLe_trans h1 h2) _

/-- C2: a file whose (lowercased) extension is in the default excluded
extension set never appears in the Candidate List produced by `main`'s
`collect_files` call, whatever the `--include-ext` allow-list and the other
CLI arguments: the exclusion set is checked before, and regardless of, the
allow-list. -/
theorem c2_default_exclusions_beat_allow_list (fs : List Entry) (args : Args)
    (p : List String) (hp : p ∈ main_collect fs args) :
    strLower (pySuffix (lastName p)) ∉ DEFAULT_EXCLUDE_EXTS := by
  unfold main_collect at hp
  rcases collect_files_mem hp with ⟨fn, hlast, _, _, hee, _⟩
  unfold lastName
  rw [hlast]
  intro hmem
  exact hee (List.mem_append.mpr (Or.inl hmem))

theorem c2_default_exclusions_beat_allow_list_witness :
    ["a.py"] ∈ main_collect [Entry.file "a.py" false, Entry.file "x.png" false]
      { out := "prompt_context.md", include_ext := "py,png", exclude_ext := "",
        exclude_glob := "", max_bytes := 0 } ∧
    strLower (pySuffix (lastName ["a.py"])) ∉ DEFAULT_EXCLUDE_EXTS := by
  have hmem : ["a.py"] ∈ main_collect
      [Entry.file "a.py" false, Entry.file "x.png" false]
      { out := "prompt_context.md", include_ext := "py,png", exclude_ext := "",
        exclude_glob := "", max_bytes := 0 } := by
    simp [main_collect, collect_files, collectFrom, fileAdmitted,
      matches_any_glob, pySort, insertSorted]
  exact ⟨hmem, c2_default_exclusions_beat_allow_list _ _ _ hmem⟩

/-- C3: no path in the Candidate List passes through a directory whose name
is in the ignored-directory set: every directory segment of every collected
path (all segments but the last) is outside that set, for every filesystem
and policy — pruned directories are never descended into. -/
theorem c3_ignored_dirs_never_entered (root : List Entry)
    (ie igd igf ee eg : List String) (p : List String)
    (hp : p ∈ collect_files root ie igd igf ee eg) :
    ∀ d ∈ p.dropLast, d ∉ igd := by
  rcases collect_files_mem hp with ⟨fn, _, hdirs, _⟩
  exact hdirs

theorem c3_ignored_dirs_never_entered_witness :
    (["sub", "a.py"] ∈ collect_files
      [Entry.dir "sub" [Entry.file "a.py" false],
       Entry.dir "node_modules" [Entry.file "b.py" false]]
      [] DEFAULT_IGNORE_DIRS DEFAULT_IGNORE_FILES DEFAULT_EXCLUDE_EXTS []) ∧
    ∀ d ∈ (["sub", "a.py"] : List String).dropLast, d ∉ DEFAULT_IGNORE_DIRS := by
  have hmem : ["sub", "a.py"] ∈ collect_files
      [Entry.dir "sub" [Entry.file "a.py" false],
       Entry.dir "node_modules" [Entry.file "b.py" false]]
      [] DEFAULT_IGNORE_DIRS DEFAULT_IGNORE_FILES DEFAULT_EXCLUDE_EXTS [] := by
    simp [collect_files, collectFrom, fileAdmitted, dirKept,
      matches_any_glob, pySort, insertSorted]
  exact ⟨hmem, c3_ignored_dirs_never_entered _ _ _ _ _ _ _ hmem⟩

/-- C1 counterexample: with `--out custom.md`, a pre-existing file named
`custom.md` at the root IS collected — `main` passes the fixed
`DEFAULT_IGNORE_FILES` to `collect_files` no matter what `args.out` is, so
only the default output name `prompt_context.md` is self-excluded; the
claim's "including when `--out` is set to a non-default name" is false.  (On
a second run with the same flags the file at the output path is scanned
into its own replacement.) -/
theorem c1_counterexample :
    main_collect [Entry.file "custom.md" false]
      { out := "custom.md", include_ext := "", exclude_ext := "",
        exclude_glob := "", max_bytes := 0 } = [["custom.md"]] := by
  simp [main_collect, collect_files, collectFrom, fileAdmitted,
    matches_any_glob, pySort, insertSorted]

/-- C1 amended: the bare names `prompt_context.md` (the default `--out`) and
`generate_prompt_context.py` (the tool's own source file) never appear as
the file name of any Candidate List entry, wherever they occur in the tree;
with the default `--out` the output path is therefore excluded.  A
non-default `--out` name enjoys no such exclusion (see the
counterexample). -/
theorem c1_default_output_and_source_excluded (fs : List Entry) (args : Args)
    (p : List String) (hp : p ∈ main_collect fs args) :
    lastName p ≠ "prompt_context.md" ∧
    lastName p ≠ "generate_prompt_context.py" := by
  unfold main_collect at hp
  rcases collect_files_mem hp with ⟨fn, hlast, _, higf, _⟩
  unfold lastName
  rw [hlast]
  simp only [Option.getD_some]
  constructor
  · intro h
    rw [h] at higf
    exact higf (by decide)
  · intro h
    rw [h] at higf
    exact higf (by decide)

theorem c1_default_output_and_source_excluded_witness :
    (["a.py"] ∈ main_collect
      [Entry.file "a.py" false, Entry.file "prompt_context.md" false,
       Entry.file "generate_prompt_context.py" false] Args.default) ∧
    lastName ["a.py"] ≠ "prompt_context.md" ∧
    lastName ["a.py"] ≠ "generate_prompt_context.py" := by
  have hmem : ["a.py"] ∈ main_collect
      [Entry.file "a.py" false, Entry.file "prompt_context.md" false,
       Entry.file "generate_prompt_context.py" false] Args.default := by
    simp [main_collect, collect_files, collectFrom, fileAdmitted,
      matches_any_glob, pySort, insertSorted, Args.default]
  exact ⟨hmem, c1_default_output_and_source_excluded _ _ _ hmem⟩

/-- C10: extension comparison is one-sidedly case-normalized.
`to_ext_set` only dot-prefixes its entries without lowercasing them
(`to_ext_set "PY" = [".PY"]`); since `collect_files` lowercases each file's
extension before the membership tests, an allow-list whose entries all
contain an uppercase letter matches no file at all, while a file named
`X.PNG` is still excluded by the (lowercase) default exclusion set. -/
theorem c10_one_sided_case_normalization :
    to_ext_set (some "PY") = [".PY"] ∧
    (∀ (fs : List Entry) (ie igd igf ee eg : List String), ie ≠ [] →
      (∀ e ∈ ie, hasUpperA e = true) →
      collect_files fs ie igd igf ee eg = []) ∧
    (∀ (fs : List Entry) (ie igd igf eg : List String) (p : List String),
      p ∈ collect_files fs ie igd igf DEFAULT_EXCLUDE_EXTS eg →
      lastName p ≠ "X.PNG") := by
  refine ⟨by decide, ?_, ?_⟩
  · intro fs ie igd igf ee eg hne hup
    rw [List.eq_nil_iff_forall_not_mem]
    intro p hp
    rcases collect_files_mem hp with ⟨fn, _, _, _, _, hie⟩
    have hmem := hie hne
    have hflat := hup _ hmem
    rw [hasUpperA_strLower] at hflat
    exact Bool.false_ne_true hflat
  · intro fs ie igd igf eg p hp
    rcases collect_files_mem hp with ⟨fn, hlast, _, _, hee, _⟩
    unfold lastName
    rw [hlast]
    simp only [Option.getD_some]
    intro h
    rw [h] at hee
    exact hee (by decide)

theorem c10_one_sided_case_normalization_witness :
    collect_files [Entry.file "a.py" false] [".PY"] DEFAULT_IGNORE_DIRS
      DEFAULT_IGNORE_FILES DEFAULT_EXCLUDE_EXTS [] = [] ∧
    (["a.py"] ∈ collect_files
      [Entry.file "a.py" false, Entry.file "X.PNG" false]
      [] DEFAULT_IGNORE_DIRS DEFAULT_IGNORE_FILES DEFAULT_EXCLUDE_EXTS []) ∧
    lastName ["a.py"] ≠ "X.PNG" := by
  have hmem : ["a.py"] ∈ collect_files
      [Entry.file "a.py" false, Entry.file "X.PNG" false]
      [] DEFAULT_IGNORE_DIRS DEFAULT_IGNORE_FILES DEFAULT_EXCLUDE_EXTS [] := by
    simp [collect_files, collectFrom, fileAdmitted, matches_any_glob,
      pySort, insertSorted]
  refine ⟨(c10_one_sided_case_normalization.2.1 _ [".PY"] _ _ _ []
      (by decide) (by decide)), hmem,
    c10_one_sided_case_normalization.2.2 _ _ _ _ _ _ hmem⟩

/-- C9: for every non-binary readable 20-byte buffer and byte budget 10,
`read_text_file` returns the decoding of the first 10 bytes as content,
together with a note that is the truncation note (possibly extended by the
decode caveat when the cut falls inside a multi-byte character), and the
file still receives its heading and content block in the document — it is
not skipped. -/
theorem c9_truncation_keeps_file (data : List Nat) (rel lang : String)
    (h20 : data.length = 20) (hnb : is_probably_binary data = false) :
    (read_text_file (some data) 10).1 =
      some (utf8DecodeReplace (data.take 10)).1 ∧
    (∃ n, (read_text_file (some data) 10).2 = some n ∧
      (n = "TRUNCATED to first 10 bytes (use --max-bytes 0 for full content)" ∨
       n = "TRUNCATED to first 10 bytes (use --max-bytes 0 for full content)"
         ++ " | invalid utf-8 replaced")) ∧
    (fileSection rel lang (read_text_file (some data) 10)).head? =
      some ("### FILE: `" ++ rel ++ "`\n") := by
  simp only [read_text_file, hnb, Bool.false_eq_true, if_false]
  have hcond : ((10 : Int) ≠ 0 ∧ ((data.length : Int) > 10)) := by
    rw [h20]
    constructor
    · decide
    · decide
  rw [if_pos hcond, if_pos hcond]
  have hslice : pySliceTo data 10 = data.take 10 := by
    unfold pySliceTo
    rw [if_pos (by decide : (0:Int) ≤ 10)]
    rfl
  rw [hslice]
  have hnote : ("TRUNCATED to first " ++ toString (10 : Int) ++
      " bytes (use --max-bytes 0 for full content)") =
      "TRUNCATED to first 10 bytes (use --max-bytes 0 for full content)" := by
    decide
  cases hdec : (utf8DecodeReplace (data.take 10)).2
  · simp [hdec, fileSection, hnote]
  · simp [hdec, fileSection, hnote]

theorem c9_truncation_keeps_file_witness :
    ((List.replicate 20 97 : List Nat).length = 20 ∧
     is_probably_binary (List.replicate 20 97) = false) ∧
    ((read_text_file (some (List.replicate 20 97)) 10).1 =
       some (utf8DecodeReplace ((List.replicate 20 97).take 10)).1 ∧
     (∃ n, (read_text_file (some (List.replicate 20 97)) 10).2 = some n ∧
       (n = "TRUNCATED to first 10 bytes (use --max-bytes 0 for full content)"
        ∨ n = "TRUNCATED to first 10 bytes (use --max-bytes 0 for full content)"
          ++ " | invalid utf-8 replaced")) ∧
     (fileSection "a.txt" "text"
        (read_text_file (some (List.replicate 20 97)) 10)).head? =
       some ("### FILE: `" ++ "a.txt" ++ "`\n")) :=
  ⟨⟨by decide, by decide⟩,
   c9_truncation_keeps_file (List.replicate 20 97) "a.txt" "text"
     (by decide) (by decide)⟩

/-- C4: in a root with `a.py` and `b/c.py` and the single exclude glob
`b/**` (all other configuration default), the directory `b` is pruned at
descent time — its relative path with a trailing slash appended matches the
glob — the Candidate List is exactly `[a.py]`, and the rendered tree has no
`b` node: it is exactly the root line and the `a.py` line. -/
theorem c4_exclude_glob_prunes_directory :
    matches_any_glob "b" ["b/**"] true = true ∧
    main_collect [Entry.file "a.py" false,
      Entry.dir "b" [Entry.file "c.py" false]]
      { out := "prompt_context.md", include_ext := "", exclude_ext := "",
        exclude_glob := "b/**", max_bytes := 0 } = [["a.py"]] ∧
    build_tree_lines [Entry.file "a.py" false,
      Entry.dir "b" [Entry.file "c.py" false]] [["a.py"]] =
      [".", "└── a.py"] := by
  have hgb : matches_any_glob "b" ["b/**"] true = true := by
    simp [matches_any_glob, fnmatch, globMatch, endsWithSlash]
  have hga : matches_any_glob "a.py" ["b/**"] false = false := by
    simp [matches_any_glob, fnmatch, globMatch, endsWithSlash]
  refine ⟨hgb, ?_, by decide⟩
  have hmc : main_collect [Entry.file "a.py" false,
      Entry.dir "b" [Entry.file "c.py" false]]
      { out := "prompt_context.md", include_ext := "", exclude_ext := "",
        exclude_glob := "b/**", max_bytes := 0 } =
      collect_files [Entry.file "a.py" false,
        Entry.dir "b" [Entry.file "c.py" false]]
        [] DEFAULT_IGNORE_DIRS DEFAULT_IGNORE_FILES
        (DEFAULT_EXCLUDE_EXTS ++ []) ["b/**"] := rfl
  rw [hmc]
  have hsuf : strLower (pySuffix "a.py") = ".py" := by decide
  have hpos1 : posixOf ([] ++ ["a.py"]) = "a.py" := by decide
  have hpos2 : posixOf ([] ++ ["b"]) = "b" := by decide
  have hfa : fileAdmitted [] DEFAULT_IGNORE_FILES DEFAULT_EXCLUDE_EXTS
      ["b/**"] [] "a.py" false = true := by
    rw [fileAdmitted_iff]
    refine ⟨by decide, rfl, by rw [hpos1]; exact hga, ?_, by simp⟩
    rw [hsuf]
    decide
  have hdk : dirKept DEFAULT_IGNORE_DIRS ["b/**"] [] "b" = false := by
    unfold dirKept
    rw [if_neg (by decide : ¬ ("b" ∈ DEFAULT_IGNORE_DIRS))]
    rw [hpos2, hgb]
    simp
  simp [collect_files, collectFrom, hfa, hdk, pySort, insertSorted]

theorem mem_treeNodes {files : List (List String)} {n : List String}
    (h : n ∈ treeNodes files) :
    ∃ f ∈ files, ∃ i, i < f.length ∧ n = f.take (i + 1) := by
  unfold treeNodes at h
  rw [List.mem_dedup] at h
  rcases List.mem_flatMap.mp h with ⟨f, hf, hn⟩
  unfold prefixesOf at hn
  rcases List.mem_map.mp hn with ⟨i, hi, rfl⟩
  exact ⟨f, hf, i, List.mem_range.mp hi, rfl⟩

theorem walkTree_line_shape (fs : List Entry) (nodes : List (List String)) :
    ∀ (fuel : Nat) (ind : String) (parent : List String) (line : String),
      line ∈ walkTree fs nodes fuel ind parent →
      ∃ n ∈ nodes, ∃ i2 sfx,
        (line = i2 ++ "├── " ++ lastName n ++ sfx ∨
         line = i2 ++ "└── " ++ lastName n ++ sfx) := by
  intro fuel
  induction fuel with
  | zero =>
    intro ind parent line h
    simp [walkTree] at h
  | succ fuel ih =>
    intro ind parent line h
    rw [walkTree] at h
    rcases List.mem_flatMap.mp h with ⟨x, hx, hline⟩
    have hk : x.2 ∈ childrenOf fs nodes parent :=
      mem_snd_of_mem_enumFrom (by simpa [List.enum] using hx)
    have hn := (mem_childrenOf hk).1
    rcases List.mem_cons.mp hline with hline | hline
    · refine ⟨x.2, hn, ind, (if isDirIn fs x.2 then "/" else ""), ?_⟩
      by_cases hl : x.1 = (childrenOf fs nodes parent).length - 1
      · right
        simp only [hline, hl, if_true]
      · left
        simp only [hline, hl, if_false]
    · split_ifs at hline with h1 h2 <;>
        first
        | (exact ih _ _ _ hline)
        | (exact absurd hline (List.not_mem_nil line))

/-- C6: the rendered tree always starts with the root line `.`, and every
other rendered line displays a member of the Tree Node Set, each of which is
a non-empty prefix of some path in the Candidate List — so a directory with
no surviving descendant file is never rendered. -/
theorem c6_rendered_nodes_are_prefixes (fs : List Entry)
    (files : List (List String)) :
    (build_tree_lines fs files).head? = some "." ∧
    ∀ line ∈ (build_tree_lines fs files).tail,
      ∃ n ∈ treeNodes files,
        (n ≠ [] ∧ ∃ f ∈ files, ∃ t, n ++ t = f) ∧
        ∃ i2 sfx,
          (line = i2 ++ "├── " ++ lastName n ++ sfx ∨
           line = i2 ++ "└── " ++ lastName n ++ sfx) := by
  constructor
  · rfl
  · intro line hline
    have h2 : line ∈ walkTree fs (treeNodes files)
        (maxNodeLen (treeNodes files) + 1) "" [] := by
      simpa [build_tree_lines, build_tree_lines_enum] using hline
    rcases walkTree_line_shape fs (treeNodes files) _ _ _ _ h2 with
      ⟨n, hn, i2, sfx, hshape⟩
    refine ⟨n, hn, ⟨?_, ?_⟩, i2, sfx, hshape⟩
    · rcases mem_treeNodes hn with ⟨f, hf, i, hi, rfl⟩
      simp only [ne_eq, List.take_eq_nil_iff]
      intro hcon
      rcases hcon with hcon | hcon
      · exact absurd hcon (by omega)
      · subst hcon
        simp at hi
    · rcases mem_treeNodes hn with ⟨f, hf, i, hi, rfl⟩
      exact ⟨f, hf, f.drop (i + 1), List.take_append_drop _ _⟩

theorem c6_rendered_nodes_are_prefixes_witness :
    (build_tree_lines
      [Entry.file "a.py" false, Entry.dir "b" [Entry.file "c.py" false]]
      [["a.py"], ["b", "c.py"]]).head? = some "." ∧
    (∃ n ∈ treeNodes [["a.py"], ["b", "c.py"]],
      (n ≠ [] ∧ ∃ f ∈ [["a.py"], ["b", "c.py"]], ∃ t, n ++ t = f) ∧
      ∃ i2 sfx,
        (("├── b/" : String) = i2 ++ "├── " ++ lastName n ++ sfx ∨
         ("├── b/" : String) = i2 ++ "└── " ++ lastName n ++ sfx)) :=
  ⟨(c6_rendered_nodes_are_prefixes
      [Entry.file "a.py" false, Entry.dir "b" [Entry.file "c.py" false]]
      [["a.py"], ["b", "c.py"]]).1,
   (c6_rendered_nodes_are_prefixes
      [Entry.file "a.py" false, Entry.dir "b" [Entry.file "c.py" false]]
      [["a.py"], ["b", "c.py"]]).2 "├── b/" (by decide)⟩

theorem maxNodeLen_perm {e1 e2 : List (List String)} (h : e1.Perm e2) :
    maxNodeLen e1 = maxNodeLen e2 := by
  unfold maxNodeLen
  induction h with
  | nil => rfl
  | cons x _ ih => simp [ih]
  | swap x y l =>
    simp only [List.foldr_cons]
    rw [← Nat.max_assoc, ← Nat.max_assoc, Nat.max_comm y.length x.length]
  | trans _ _ ih1 ih2 => rw [ih1, ih2]

theorem walkTree_eq_of_childrenOf_eq {fs : List Entry}
    {e1 e2 : List (List String)}
    (hch : ∀ parent, childrenOf fs e1 parent = childrenOf fs e2 parent) :
    ∀ (fuel : Nat) (ind : String) (parent : List String),
      walkTree fs e1 fuel ind parent = walkTree fs e2 fuel ind parent := by
  intro fuel
  induction fuel with
  | zero => intro ind parent; rfl
  | succ fuel ih =>
    intro ind parent
    rw [walkTree, walkTree, ← hch parent]
    apply flatMap_congr_mem
    intro x hx
    cases hd : isDirIn fs x.2 <;> simp [hd, ih]

theorem childrenOf_eq_of_perm {fs : List Entry} {e1 e2 : List (List String)}
    (hperm : e1.Perm e2)
    (hdist : ∀ n1 ∈ e2, ∀ n2 ∈ e2, n1 ≠ n2 → n1.length = n2.length →
      n1.dropLast = n2.dropLast → nodeKey fs n1 ≠ nodeKey fs n2)
    (parent : List String) :
    childrenOf fs e1 parent = childrenOf fs e2 parent := by
  apply eq_of_perm_of_pairwise (R := fun a b => keyLe fs a b = true)
  · exact (pySort_perm _ _).trans ((hperm.filter _).trans
      (pySort_perm _ _).symm)
  · exact pairwise_pySort (fun a b => keyLe_total fs a b)
      (fun a b c => keyLe_trans fs a b c) _
  · exact pairwise_pySort (fun a b => keyLe_total fs a b)
      (fun a b c => keyLe_trans fs a b c) _
  · intro a ha b hb hab hba
    rcases mem_childrenOf ha with ⟨ha1, ha2, ha3⟩
    rcases mem_childrenOf hb with ⟨hb1, hb2, hb3⟩
    by_contra hne
    refine hdist a (hperm.mem_iff.mp ha1) b (hperm.mem_iff.mp hb1) hne
      (by omega) ?_ (keyLe_antisymm_key hab hba)
    rw [List.dropLast_eq_take, List.dropLast_eq_take, ha2, hb2]
    simp [ha3, hb3]

/-- C8 counterexample: as stated, the claim is false across whole runs.  The
node set is a Python `set` of paths, whose iteration order depends on the
per-process string hash seed; `children` reads the set in iteration order
and sorts stably, so two nodes with tied sort keys — sibling files whose
names are equal up to ASCII case, here `A.py` and `a.py` — keep the
iteration order.  Two enumerations of the same node set (both permutations
of it, as two runs can produce) render different tree lines, while flags
and filesystem are identical. -/
theorem c8_counterexample :
    collect_files [Entry.file "A.py" false, Entry.file "a.py" false]
      [] DEFAULT_IGNORE_DIRS DEFAULT_IGNORE_FILES DEFAULT_EXCLUDE_EXTS []
      = [["A.py"], ["a.py"]] ∧
    List.Perm [["a.py"], ["A.py"]] (treeNodes [["A.py"], ["a.py"]]) ∧
    build_tree_lines_enum [Entry.file "A.py" false, Entry.file "a.py" false]
        [["a.py"], ["A.py"]] ≠
      build_tree_lines [Entry.file "A.py" false, Entry.file "a.py" false]
        [["A.py"], ["a.py"]] := by
  refine ⟨?_, by decide, by decide⟩
  simp only [collect_files, collectFrom, fileAdmitted, matches_any_glob,
    pySort, insertSorted, sortKey]
  decide

/-- C8 amended: `build_tree_lines` is a pure function of the Candidate List
and the node-set enumeration order, so repeated calls within one process
(where the enumeration is fixed) render identical lines; within every
directory's children all subdirectories precede all files and each group is
ordered case-insensitively by name (the `keyLe` sort-key order); and the
rendered lines are independent of the enumeration order — hence identical
across runs — provided no two distinct sibling nodes share a sort key
(directory/file kind plus lowercased name).  File-content sections do not
depend on the node enumeration at all.  Without the no-tied-siblings
proviso, cross-run determinism fails (see the counterexample). -/
theorem c8_children_sorted_and_determinism (fs : List Entry) :
    (∀ (nodes : List (List String)) (parent : List String),
      (childrenOf fs nodes parent).Pairwise
        (fun a b => keyLe fs a b = true)) ∧
    (∀ (files enum : List (List String)),
      enum.Perm (treeNodes files) →
      (∀ n1 ∈ treeNodes files, ∀ n2 ∈ treeNodes files, n1 ≠ n2 →
        n1.length = n2.length → n1.dropLast = n2.dropLast →
        nodeKey fs n1 ≠ nodeKey fs n2) →
      build_tree_lines_enum fs enum = build_tree_lines fs files) := by
  constructor
  · intro nodes parent
    exact pairwise_pySort (fun a b => keyLe_total fs a b)
      (fun a b c => keyLe_trans fs a b c) _
  · intro files enum hperm hdist
    unfold build_tree_lines build_tree_lines_enum
    rw [maxNodeLen_perm hperm]
    exact congrArg _ (walkTree_eq_of_childrenOf_eq
      (childrenOf_eq_of_perm hperm hdist) _ _ _)

theorem c8_children_sorted_and_determinism_witness :
    (childrenOf [Entry.file "a.py" false, Entry.dir "b" [Entry.file "c.py" false]]
      [["a.py"], ["b"], ["b", "c.py"]] []).Pairwise
      (fun a b => keyLe [Entry.file "a.py" false,
        Entry.dir "b" [Entry.file "c.py" false]] a b = true) ∧
    build_tree_lines_enum
        [Entry.file "a.py" false, Entry.dir "b" [Entry.file "c.py" false]]
        [["b", "c.py"], ["b"], ["a.py"]] =
      build_tree_lines
        [Entry.file "a.py" false, Entry.dir "b" [Entry.file "c.py" false]]
        [["a.py"], ["b", "c.py"]] :=
  ⟨(c8_children_sorted_and_determinism _).1 [["a.py"], ["b"], ["b", "c.py"]] [],
   (c8_children_sorted_and_determinism _).2 [["a.py"], ["b", "c.py"]]
     [["b", "c.py"], ["b"], ["a.py"]] (by decide) (by decide)⟩

end PromptContext
